import Mathlib

/-!
LRURP, the clean-first least-recently-used replacement policy.

A shallow embedding of `src/lru_rp.cc`.  Cache blocks and their replacement
data live in a memory indexed by addresses; `invalidate`, `touch` and `reset`
are memory transformers, and `getVictim` scans a list of candidate addresses.
-/

set_option autoImplicit false

namespace LRURP

/-- Simulated time (`Tick` is an unsigned 64-bit counter in the source; no
arithmetic is performed on it here, only comparison and assignment). -/
abbrev Tick := Nat

/-- Addresses of heap objects (`ReplaceableEntry*`, `shared_ptr<ReplacementData>`). -/
abbrev Addr := Nat

/-- Modelled from the spec: the declaration of `LRUReplData` (in `lru_rp.hh`) is
not part of the sources; the replacement metadata holds the tick of the last
touch. -/
structure LRUReplData where
  lastTouchTick : Tick
deriving DecidableEq, Repr

/-- Modelled from the spec: the declaration of `CacheBlk` (in `blk.hh`) is not
part of the sources; a candidate exposes the pointer to its replacement data
and a dirty/clean attribute (what `isDirty()` returns). -/
structure CacheBlk where
  replacementData : Addr
  dirty : Bool
deriving DecidableEq, Repr

/-- The part of the heap the policy works on: the cache blocks behind the
candidate pointers and the replacement data behind the shared pointers. -/
structure Memory where
  blk : Addr → CacheBlk
  data : Addr → LRUReplData

/-- `invalidate`: store `Tick(0)` in the `lastTouchTick` of the replacement data. -/
def invalidate (s : Memory) (replacement_data : Addr) : Memory :=
  { s with
    data := Function.update s.data replacement_data
      ({ s.data replacement_data with lastTouchTick := 0 }) }

/-- `touch`: store `curTick()` in the `lastTouchTick` of the replacement data.
The global clock accessor `curTick()` is host code; its value at the call is
the parameter `curTick`. -/
def touch (curTick : Tick) (s : Memory) (replacement_data : Addr) : Memory :=
  { s with
    data := Function.update s.data replacement_data
      ({ s.data replacement_data with lastTouchTick := curTick }) }

/-- `reset`: store `curTick()` in the `lastTouchTick` of the replacement data. -/
def reset (curTick : Tick) (s : Memory) (replacement_data : Addr) : Memory :=
  { s with
    data := Function.update s.data replacement_data
      ({ s.data replacement_data with lastTouchTick := curTick }) }

/-- The expression `static_pointer_cast<LRUReplData>(candidate->replacementData)->lastTouchTick`. -/
def candidateTick (s : Memory) (candidate : Addr) : Tick :=
  (s.data (s.blk candidate).replacementData).lastTouchTick

/-- The expression `static_cast<CacheBlk*>(candidate)->isDirty()`. -/
def isDirty (s : Memory) (candidate : Addr) : Bool :=
  (s.blk candidate).dirty

/-- The two assertions of `getVictim`. -/
inductive AssertFail where
  /-- Failure of `assert(candidates.size() > 0)`. -/
  | candidatesEmpty
  /-- Failure of `assert(oldest_dirty_entry != nullptr)`. -/
  | oldestDirtyNull
deriving DecidableEq, Repr

deriving instance DecidableEq for Except

/-- The local variables of `getVictim`; `none` is `nullptr`. -/
structure Locals where
  oldest_clean_entry : Option Addr
  oldest_dirty_entry : Option Addr
  oldest_clean_tick : Tick
  oldest_dirty_tick : Tick
deriving DecidableEq, Repr

/-- The locals as initialised before the loop; `MaxTick` is the constant of
that name, declared outside the sources. -/
def Locals.init (MaxTick : Tick) : Locals :=
  { oldest_clean_entry := none
    oldest_dirty_entry := none
    oldest_clean_tick := MaxTick
    oldest_dirty_tick := MaxTick }

/-- One iteration of the loop body of `getVictim`. -/
def loopBody (s : Memory) (l : Locals) (candidate : Addr) : Locals :=
  let candidate_tick := candidateTick s candidate
  if isDirty s candidate then
    if candidate_tick < l.oldest_dirty_tick then
      { l with oldest_dirty_tick := candidate_tick, oldest_dirty_entry := some candidate }
    else l
  else
    if candidate_tick < l.oldest_clean_tick then
      { l with oldest_clean_tick := candidate_tick, oldest_clean_entry := some candidate }
    else l

/-- `getVictim`: the result of the call (the victim, or the assertion that
failed) together with the memory after it.  The function performs no store. -/
def getVictim (MaxTick : Tick) (s : Memory) (candidates : List Addr) :
    Except AssertFail Addr × Memory :=
  if candidates.length > 0 then
    let l := candidates.foldl (loopBody s) (Locals.init MaxTick)
    match l.oldest_clean_entry with
    | some victim => (.ok victim, s)
    | none =>
      match l.oldest_dirty_entry with
      | some victim => (.ok victim, s)
      | none => (.error .oldestDirtyNull, s)
  else (.error .candidatesEmpty, s)

/-- A memory holding the given lines: the block at address `i` has its
replacement data at address `i`, and carries the `i`-th (dirty, tick) pair;
addresses past the end hold clean lines with tick 0. -/
def Memory.ofLines (lines : List (Bool × Tick)) : Memory :=
  { blk := fun a => { replacementData := a, dirty := (lines.getD a (false, 0)).1 }
    data := fun a => { lastTouchTick := (lines.getD a (false, 0)).2 } }

/-- The value of the constant `MaxTick` in gem5 (`0x7fffffffffffffff`), used
for concrete evaluations only. -/
def gem5MaxTick : Tick := 0x7fffffffffffffff

/-- The pair (oldest entry, oldest tick) the locals hold for one partition
(`true`: dirty, `false`: clean). -/
def Locals.part (l : Locals) (d : Bool) : Option Addr × Tick :=
  if d then (l.oldest_dirty_entry, l.oldest_dirty_tick)
  else (l.oldest_clean_entry, l.oldest_clean_tick)

/-- What the scan of one partition may end in, starting from the pair `a`:
either nothing was recorded, or the entry `v` was. -/
def ScanOutcome (s : Memory) (d : Bool) (candidates : List Addr) (a r : Option Addr × Tick) :
    Prop :=
  (r = a ∧ ∀ c ∈ candidates, isDirty s c = d → a.2 ≤ candidateTick s c) ∨
  (∃ pre v post, candidates = pre ++ v :: post ∧ isDirty s v = d ∧
    r = (some v, candidateTick s v) ∧ candidateTick s v < a.2 ∧
    (∀ c ∈ pre, isDirty s c = d → candidateTick s v < candidateTick s c) ∧
    (∀ c ∈ post, isDirty s c = d → candidateTick s v ≤ candidateTick s c))

/-- The locals at the end of the loop of `getVictim`. -/
def scan (MaxTick : Tick) (s : Memory) (candidates : List Addr) : Locals :=
  candidates.foldl (loopBody s) (Locals.init MaxTick)

/-- One call on the replacement data of a line, with the clock value `curTick()`
has at the call for `touch` and `reset`. -/
inductive Op where
  | invalidate
  | touch (curTick : Tick)
  | reset (curTick : Tick)
deriving DecidableEq, Repr

/-- The memory after the call `op` on `replacement_data`. -/
def Op.apply (s : Memory) (replacement_data : Addr) : Op → Memory
  | .invalidate => LRURP.invalidate s replacement_data
  | .touch curTick => LRURP.touch curTick s replacement_data
  | .reset curTick => LRURP.reset curTick s replacement_data

/-- The clock value a call reads: none for `invalidate`. -/
def Op.clock : Op → Option Tick
  | .invalidate => none
  | .touch curTick => some curTick
  | .reset curTick => some curTick

/-- The memory after a sequence of calls on `replacement_data`, first call first. -/
def run (s : Memory) (replacement_data : Addr) (ops : List Op) : Memory :=
  ops.foldl (fun m op => Op.apply m replacement_data op) s

/-- The tick stored in `replacement_data` after each call of a sequence, in
the order of the calls. -/
def storedTicks (s : Memory) (replacement_data : Addr) : List Op → List Tick
  | [] => []
  | op :: ops =>
    ((Op.apply s replacement_data op).data replacement_data).lastTouchTick ::
      storedTicks (Op.apply s replacement_data op) replacement_data ops

/-- The tick C15 expects after a sequence of calls that starts from the
sentinel: the clock value of the last call when that is a `touch` or a `reset`,
and the sentinel 0 when the last call is an `invalidate` or there is no call. -/
def expectedTick (ops : List Op) : Tick :=
  match ops.getLast? with
  | some (.touch curTick) => curTick
  | some (.reset curTick) => curTick
  | some .invalidate => 0
  | none => 0

theorem part_loopBody (s : Memory) (l : Locals) (c : Addr) (d : Bool) :
    (loopBody s l c).part d =
      if isDirty s c = d ∧ candidateTick s c < (l.part d).2 then (some c, candidateTick s c)
      else l.part d := by
  unfold loopBody Locals.part
  cases d <;> cases hc : isDirty s c <;> simp <;> split <;> simp_all

theorem scan_outcome (s : Memory) (d : Bool) (candidates : List Addr) :
    ∀ l : Locals, ScanOutcome s d candidates (l.part d)
      ((candidates.foldl (loopBody s) l).part d) := by
  induction candidates with
  | nil => intro l; left; simp
  | cons c cs ih =>
    intro l
    have hstep := part_loopBody s l c d
    have hrec := ih (loopBody s l c)
    rw [List.foldl_cons]
    by_cases hupd : isDirty s c = d ∧ candidateTick s c < (l.part d).2
    · rw [if_pos hupd] at hstep
      rw [hstep] at hrec
      right
      rcases hrec with ⟨hr, hall⟩ | ⟨pre, v, post, hcs, hv, hr, hlt, hpre, hpost⟩
      · exact ⟨[], c, cs, rfl, hupd.1, hr, hupd.2, by simp, hall⟩
      · refine ⟨c :: pre, v, post, by simp [hcs], hv, hr, lt_trans hlt hupd.2, ?_, hpost⟩
        intro x hx hxd
        rcases List.mem_cons.1 hx with rfl | hx
        · exact hlt
        · exact hpre x hx hxd
    · rw [if_neg hupd] at hstep
      rw [hstep] at hrec
      rcases hrec with ⟨hr, hall⟩ | ⟨pre, v, post, hcs, hv, hr, hlt, hpre, hpost⟩
      · left
        refine ⟨hr, ?_⟩
        intro x hx hxd
        rcases List.mem_cons.1 hx with rfl | hx
        · exact Nat.le_of_not_lt (fun h => hupd ⟨hxd, h⟩)
        · exact hall x hx hxd
      · right
        refine ⟨c :: pre, v, post, by simp [hcs], hv, hr, hlt, ?_, hpost⟩
        intro x hx hxd
        rcases List.mem_cons.1 hx with rfl | hx
        · exact lt_of_lt_of_le hlt (Nat.le_of_not_lt (fun h => hupd ⟨hxd, h⟩))
        · exact hpre x hx hxd

theorem init_part (MaxTick : Tick) (d : Bool) : (Locals.init MaxTick).part d = (none, MaxTick) := by
  cases d <;> rfl

theorem scan_part_outcome (MaxTick : Tick) (s : Memory) (d : Bool) (candidates : List Addr) :
    ScanOutcome s d candidates (none, MaxTick) ((scan MaxTick s candidates).part d) := by
  have h := scan_outcome s d candidates (Locals.init MaxTick)
  rwa [init_part] at h

theorem getVictim_eq (MaxTick : Tick) (s : Memory) (candidates : List Addr) :
    getVictim MaxTick s candidates =
      if candidates.length > 0 then
        match ((scan MaxTick s candidates).part false).1 with
        | some victim => (.ok victim, s)
        | none =>
          match ((scan MaxTick s candidates).part true).1 with
          | some victim => (.ok victim, s)
          | none => (.error .oldestDirtyNull, s)
      else (.error .candidatesEmpty, s) := by
  rfl

/-- A recorded entry is an element of the list, in the partition, below
`MaxTick`, first among the oldest of its partition. -/
theorem recorded_spec (MaxTick : Tick) (s : Memory) (d : Bool) (candidates : List Addr)
    (v : Addr) (h : ((scan MaxTick s candidates).part d).1 = some v) :
    isDirty s v = d ∧ candidateTick s v < MaxTick ∧
    ∃ pre post, candidates = pre ++ v :: post ∧
      (∀ c ∈ pre, isDirty s c = d → candidateTick s v < candidateTick s c) ∧
      (∀ c ∈ post, isDirty s c = d → candidateTick s v ≤ candidateTick s c) := by
  rcases scan_part_outcome MaxTick s d candidates with
    ⟨hr, _⟩ | ⟨pre, w, post, hcs, hw, hr, hlt, hpre, hpost⟩
  · rw [hr] at h; cases h
  · rw [hr] at h
    cases h
    exact ⟨hw, hlt, pre, post, hcs, hpre, hpost⟩

/-- Nothing is recorded for a partition exactly when none of its candidates
is below `MaxTick`. -/
theorem recorded_none_iff (MaxTick : Tick) (s : Memory) (d : Bool) (candidates : List Addr) :
    ((scan MaxTick s candidates).part d).1 = none ↔
      ∀ c ∈ candidates, isDirty s c = d → MaxTick ≤ candidateTick s c := by
  rcases scan_part_outcome MaxTick s d candidates with
    ⟨hr, hall⟩ | ⟨pre, w, post, hcs, hw, hr, hlt, _, _⟩
  · rw [hr]; exact ⟨fun _ => hall, fun _ => rfl⟩
  · rw [hr]
    constructor
    · intro h; cases h
    · intro h
      have := h w (by simp [hcs]) hw
      exact absurd hlt (Nat.not_lt.2 this)

theorem getVictim_of_clean (MaxTick : Tick) (s : Memory) (candidates : List Addr) (v : Addr)
    (h : ((scan MaxTick s candidates).part false).1 = some v) :
    getVictim MaxTick s candidates = (.ok v, s) := by
  have hne : candidates.length > 0 := by
    cases candidates with
    | nil => simp [scan, init_part] at h
    | cons c cs => simp
  rw [getVictim_eq, if_pos hne, h]

theorem getVictim_of_dirty (MaxTick : Tick) (s : Memory) (candidates : List Addr) (v : Addr)
    (hc : ((scan MaxTick s candidates).part false).1 = none)
    (h : ((scan MaxTick s candidates).part true).1 = some v) :
    getVictim MaxTick s candidates = (.ok v, s) := by
  have hne : candidates.length > 0 := by
    cases candidates with
    | nil => simp [scan, init_part] at h
    | cons c cs => simp
  rw [getVictim_eq, if_pos hne, hc, h]

theorem getVictim_ok_inv (MaxTick : Tick) (s : Memory) (candidates : List Addr) (v : Addr)
    (h : (getVictim MaxTick s candidates).1 = .ok v) :
    ((scan MaxTick s candidates).part false).1 = some v ∨
    (((scan MaxTick s candidates).part false).1 = none ∧
      ((scan MaxTick s candidates).part true).1 = some v) := by
  rw [getVictim_eq] at h
  split at h
  · split at h
    · next w hw => left; simp at h; rw [hw, h]
    · next hn =>
      split at h
      · next w hw => right; simp at h; exact ⟨hn, by rw [hw, h]⟩
      · simp at h
  · simp at h

theorem filter_clean_part (s : Memory) (candidates : List Addr) :
    ∀ l l0 : Locals, l.part false = l0.part false →
      ((candidates.filter (fun c => !isDirty s c)).foldl (loopBody s) l).part false =
        (candidates.foldl (loopBody s) l0).part false := by
  induction candidates with
  | nil => intro l l0 h; simpa using h
  | cons c cs ih =>
    intro l l0 h
    cases hc : isDirty s c
    · rw [List.filter_cons_of_pos (by simp [hc]), List.foldl_cons, List.foldl_cons]
      apply ih
      rw [part_loopBody, part_loopBody, h]
    · rw [List.filter_cons_of_neg (by simp [hc]), List.foldl_cons]
      apply ih
      rw [part_loopBody, if_neg (by simp [hc]), h]

/-- When the list holds a clean candidate whose tick is below `MaxTick`, the
victim is a clean candidate of the list, the oldest of the clean ones. -/
theorem clean_oldest_of_below (MaxTick : Tick) (s : Memory) (candidates : List Addr)
    (h : ∃ c ∈ candidates, isDirty s c = false ∧ candidateTick s c < MaxTick) :
    ∃ v, (getVictim MaxTick s candidates).1 = .ok v ∧ v ∈ candidates ∧ isDirty s v = false ∧
      ∀ c ∈ candidates, isDirty s c = false → candidateTick s v ≤ candidateTick s c := by
  obtain ⟨c0, hc0, hclean, hlt⟩ := h
  cases hrec : ((scan MaxTick s candidates).part false).1 with
  | none =>
    have := (recorded_none_iff MaxTick s false candidates).1 hrec c0 hc0 hclean
    exact absurd hlt (Nat.not_lt.2 this)
  | some v =>
    obtain ⟨hv, _, pre, post, hcs, hpre, hpost⟩ := recorded_spec MaxTick s false candidates v hrec
    refine ⟨v, by rw [getVictim_of_clean MaxTick s candidates v hrec], by simp [hcs], hv, ?_⟩
    intro c hc hcd
    rw [hcs] at hc
    rcases List.mem_append.1 hc with hc | hc
    · exact Nat.le_of_lt (hpre c hc hcd)
    · rcases List.mem_cons.1 hc with rfl | hc
      · exact Nat.le_refl _
      · exact hpost c hc hcd

/-- C1: for a candidate list whose ticks are ticks of the clock, all below
`MaxTick` (the unreachable future time the scan starts from), and which holds
at least one clean line, `getVictim` returns a candidate of the list that is
clean and whose tick is at most the tick of every clean candidate. -/
theorem getVictim_clean_oldest (MaxTick : Tick) (s : Memory) (candidates : List Addr)
    (hreal : ∀ c ∈ candidates, candidateTick s c < MaxTick)
    (hclean : ∃ c ∈ candidates, isDirty s c = false) :
    ∃ v, (getVictim MaxTick s candidates).1 = .ok v ∧ v ∈ candidates ∧ isDirty s v = false ∧
      ∀ c ∈ candidates, isDirty s c = false → candidateTick s v ≤ candidateTick s c := by
  obtain ⟨c, hc, hcl⟩ := hclean
  exact clean_oldest_of_below MaxTick s candidates ⟨c, hc, hcl, hreal c hc⟩

/-- Witness of C1, scenario A: lines clean@5, dirty@1, clean@9; the victim is
the clean line at tick 5. -/
theorem getVictim_clean_oldest_witness :
    (∀ c ∈ [0, 1, 2],
      candidateTick (Memory.ofLines [(false, 5), (true, 1), (false, 9)]) c < gem5MaxTick) ∧
    (∃ c ∈ [0, 1, 2], isDirty (Memory.ofLines [(false, 5), (true, 1), (false, 9)]) c = false) ∧
    (getVictim gem5MaxTick (Memory.ofLines [(false, 5), (true, 1), (false, 9)])
      [0, 1, 2]).1 = .ok 0 ∧
    ∃ v, (getVictim gem5MaxTick (Memory.ofLines [(false, 5), (true, 1), (false, 9)])
        [0, 1, 2]).1 = .ok v ∧ v ∈ [0, 1, 2] ∧
      isDirty (Memory.ofLines [(false, 5), (true, 1), (false, 9)]) v = false ∧
      ∀ c ∈ [0, 1, 2], isDirty (Memory.ofLines [(false, 5), (true, 1), (false, 9)]) c = false →
        candidateTick (Memory.ofLines [(false, 5), (true, 1), (false, 9)]) v ≤
          candidateTick (Memory.ofLines [(false, 5), (true, 1), (false, 9)]) c :=
  ⟨by decide, by decide, by decide, getVictim_clean_oldest gem5MaxTick
    (Memory.ofLines [(false, 5), (true, 1), (false, 9)]) [0, 1, 2] (by decide) (by decide)⟩

/-- When every candidate is dirty and one of them has a tick below `MaxTick`,
the victim is a dirty candidate of the list with the least tick of the list. -/
theorem dirty_oldest_of_below (MaxTick : Tick) (s : Memory) (candidates : List Addr)
    (hall : ∀ c ∈ candidates, isDirty s c = true)
    (h : ∃ c ∈ candidates, candidateTick s c < MaxTick) :
    ∃ v, (getVictim MaxTick s candidates).1 = .ok v ∧ v ∈ candidates ∧ isDirty s v = true ∧
      ∀ c ∈ candidates, candidateTick s v ≤ candidateTick s c := by
  obtain ⟨c0, hc0, hlt⟩ := h
  have hclean : ((scan MaxTick s candidates).part false).1 = none := by
    rw [recorded_none_iff]
    intro c hc hcd
    rw [hall c hc] at hcd
    cases hcd
  cases hrec : ((scan MaxTick s candidates).part true).1 with
  | none =>
    have := (recorded_none_iff MaxTick s true candidates).1 hrec c0 hc0 (hall c0 hc0)
    exact absurd hlt (Nat.not_lt.2 this)
  | some v =>
    obtain ⟨hv, _, pre, post, hcs, hpre, hpost⟩ := recorded_spec MaxTick s true candidates v hrec
    refine ⟨v, by rw [getVictim_of_dirty MaxTick s candidates v hclean hrec], by simp [hcs],
      hv, ?_⟩
    intro c hc
    have hcd := hall c hc
    rw [hcs] at hc
    rcases List.mem_append.1 hc with hc | hc
    · exact Nat.le_of_lt (hpre c hc hcd)
    · rcases List.mem_cons.1 hc with rfl | hc
      · exact Nat.le_refl _
      · exact hpost c hc hcd

/-- C2: for a non-empty candidate list whose ticks are ticks of the clock, all
below `MaxTick`, and in which every line is dirty, `getVictim` returns a dirty
candidate of the list whose tick is the minimum tick over the whole list. -/
theorem getVictim_all_dirty_oldest (MaxTick : Tick) (s : Memory) (candidates : List Addr)
    (hreal : ∀ c ∈ candidates, candidateTick s c < MaxTick)
    (hne : candidates ≠ [])
    (hall : ∀ c ∈ candidates, isDirty s c = true) :
    ∃ v, (getVictim MaxTick s candidates).1 = .ok v ∧ v ∈ candidates ∧ isDirty s v = true ∧
      ∀ c ∈ candidates, candidateTick s v ≤ candidateTick s c := by
  obtain ⟨c, hc⟩ := List.exists_mem_of_ne_nil candidates hne
  exact dirty_oldest_of_below MaxTick s candidates hall ⟨c, hc, hreal c hc⟩

/-- Witness of C2, scenario B: lines dirty@5, dirty@2; the victim is the dirty
line at tick 2. -/
theorem getVictim_all_dirty_oldest_witness :
    (∀ c ∈ [0, 1], candidateTick (Memory.ofLines [(true, 5), (true, 2)]) c < gem5MaxTick) ∧
    [0, 1] ≠ [] ∧
    (∀ c ∈ [0, 1], isDirty (Memory.ofLines [(true, 5), (true, 2)]) c = true) ∧
    (getVictim gem5MaxTick (Memory.ofLines [(true, 5), (true, 2)]) [0, 1]).1 = .ok 1 ∧
    ∃ v, (getVictim gem5MaxTick (Memory.ofLines [(true, 5), (true, 2)]) [0, 1]).1 = .ok v ∧
      v ∈ [0, 1] ∧ isDirty (Memory.ofLines [(true, 5), (true, 2)]) v = true ∧
      ∀ c ∈ [0, 1], candidateTick (Memory.ofLines [(true, 5), (true, 2)]) v ≤
        candidateTick (Memory.ofLines [(true, 5), (true, 2)]) c :=
  ⟨by decide, by decide, by decide, by decide, getVictim_all_dirty_oldest gem5MaxTick
    (Memory.ofLines [(true, 5), (true, 2)]) [0, 1] (by decide) (by decide) (by decide)⟩

/-- When the list holds a clean candidate whose tick is below `MaxTick`, the
dirty candidates do not bear on the result. -/
theorem ignores_dirty_of_below (MaxTick : Tick) (s : Memory) (candidates : List Addr)
    (h : ∃ c ∈ candidates, isDirty s c = false ∧ candidateTick s c < MaxTick) :
    getVictim MaxTick s (candidates.filter (fun c => !isDirty s c)) =
      getVictim MaxTick s candidates := by
  obtain ⟨c0, hc0, hclean, hlt⟩ := h
  cases hrec : ((scan MaxTick s candidates).part false).1 with
  | none =>
    have := (recorded_none_iff MaxTick s false candidates).1 hrec c0 hc0 hclean
    exact absurd hlt (Nat.not_lt.2 this)
  | some v =>
    have hfil : ((scan MaxTick s (candidates.filter (fun c => !isDirty s c))).part false).1
        = some v := by
      unfold scan at hrec ⊢
      rw [filter_clean_part s candidates (Locals.init MaxTick) (Locals.init MaxTick) rfl, hrec]
    rw [getVictim_of_clean MaxTick s candidates v hrec, getVictim_of_clean MaxTick s _ v hfil]

/-- C3: for a candidate list whose ticks are ticks of the clock, all below
`MaxTick`, and which holds at least one clean line, `getVictim` gives the same
result on the list and on the list with all dirty candidates removed, and that
result is a clean victim: the dirty candidates, whatever their ticks, do not
change it. -/
theorem getVictim_ignores_dirty (MaxTick : Tick) (s : Memory) (candidates : List Addr)
    (hreal : ∀ c ∈ candidates, candidateTick s c < MaxTick)
    (hclean : ∃ c ∈ candidates, isDirty s c = false) :
    getVictim MaxTick s (candidates.filter (fun c => !isDirty s c)) =
      getVictim MaxTick s candidates ∧
    ∃ v, (getVictim MaxTick s candidates).1 = .ok v ∧ isDirty s v = false ∧
      (getVictim MaxTick s (candidates.filter (fun c => !isDirty s c))).1 = .ok v := by
  obtain ⟨c, hc, hcl⟩ := hclean
  have heq := ignores_dirty_of_below MaxTick s candidates ⟨c, hc, hcl, hreal c hc⟩
  obtain ⟨v, hv, _, hvc, _⟩ := clean_oldest_of_below MaxTick s candidates ⟨c, hc, hcl, hreal c hc⟩
  exact ⟨heq, v, hv, hvc, by rw [heq, hv]⟩

/-- Witness of C3, scenario C: lines clean@100, dirty@1; the victim is the
clean line, with and without the dirty line in the list. -/
theorem getVictim_ignores_dirty_witness :
    (∀ c ∈ [0, 1], candidateTick (Memory.ofLines [(false, 100), (true, 1)]) c < gem5MaxTick) ∧
    (∃ c ∈ [0, 1], isDirty (Memory.ofLines [(false, 100), (true, 1)]) c = false) ∧
    [0, 1].filter (fun c => !isDirty (Memory.ofLines [(false, 100), (true, 1)]) c) = [0] ∧
    (getVictim gem5MaxTick (Memory.ofLines [(false, 100), (true, 1)]) [0, 1]).1 = .ok 0 ∧
    getVictim gem5MaxTick (Memory.ofLines [(false, 100), (true, 1)])
        ([0, 1].filter (fun c => !isDirty (Memory.ofLines [(false, 100), (true, 1)]) c)) =
      getVictim gem5MaxTick (Memory.ofLines [(false, 100), (true, 1)]) [0, 1] :=
  ⟨by decide, by decide, by decide, by decide, (getVictim_ignores_dirty gem5MaxTick
    (Memory.ofLines [(false, 100), (true, 1)]) [0, 1] (by decide) (by decide)).1⟩

/-- C4: the victim `getVictim` returns stands at a position of the list such
that every candidate of its partition before it has a strictly greater tick
and every candidate of its partition after it has a tick at least as great:
it is the first of the oldest candidates of its partition. -/
theorem getVictim_first_of_oldest (MaxTick : Tick) (s : Memory) (candidates : List Addr)
    (v : Addr) (h : (getVictim MaxTick s candidates).1 = .ok v) :
    ∃ pre post, candidates = pre ++ v :: post ∧
      (∀ c ∈ pre, isDirty s c = isDirty s v → candidateTick s v < candidateTick s c) ∧
      (∀ c ∈ post, isDirty s c = isDirty s v → candidateTick s v ≤ candidateTick s c) := by
  rcases getVictim_ok_inv MaxTick s candidates v h with hrec | ⟨_, hrec⟩
  · obtain ⟨hv, _, pre, post, hcs, hpre, hpost⟩ := recorded_spec MaxTick s false candidates v hrec
    rw [hv]
    exact ⟨pre, post, hcs, hpre, hpost⟩
  · obtain ⟨hv, _, pre, post, hcs, hpre, hpost⟩ := recorded_spec MaxTick s true candidates v hrec
    rw [hv]
    exact ⟨pre, post, hcs, hpre, hpost⟩

/-- Witness of C4: lines dirty@3, clean@7, clean@7, clean@9; the first of the
two clean lines at tick 7 is the victim. -/
theorem getVictim_first_of_oldest_witness :
    (getVictim gem5MaxTick (Memory.ofLines [(true, 3), (false, 7), (false, 7), (false, 9)])
      [0, 1, 2, 3]).1 = .ok 1 ∧
    ∃ pre post, [0, 1, 2, 3] = pre ++ 1 :: post ∧
      (∀ c ∈ pre, isDirty (Memory.ofLines [(true, 3), (false, 7), (false, 7), (false, 9)]) c =
          isDirty (Memory.ofLines [(true, 3), (false, 7), (false, 7), (false, 9)]) 1 →
        candidateTick (Memory.ofLines [(true, 3), (false, 7), (false, 7), (false, 9)]) 1 <
          candidateTick (Memory.ofLines [(true, 3), (false, 7), (false, 7), (false, 9)]) c) ∧
      (∀ c ∈ post, isDirty (Memory.ofLines [(true, 3), (false, 7), (false, 7), (false, 9)]) c =
          isDirty (Memory.ofLines [(true, 3), (false, 7), (false, 7), (false, 9)]) 1 →
        candidateTick (Memory.ofLines [(true, 3), (false, 7), (false, 7), (false, 9)]) 1 ≤
          candidateTick (Memory.ofLines [(true, 3), (false, 7), (false, 7), (false, 9)]) c) :=
  ⟨by decide, getVictim_first_of_oldest gem5MaxTick
    (Memory.ofLines [(true, 3), (false, 7), (false, 7), (false, 9)]) [0, 1, 2, 3] 1
    (by decide)⟩

/-- C5: for a non-empty candidate list whose ticks are ticks of the clock, all
below `MaxTick`, `getVictim` produces a victim: the assertion
`oldest_dirty_entry != nullptr` does not fail, because a clean candidate was
recorded or every candidate is dirty and a dirty one was recorded. -/
theorem getVictim_returns (MaxTick : Tick) (s : Memory) (candidates : List Addr)
    (hreal : ∀ c ∈ candidates, candidateTick s c < MaxTick)
    (hne : candidates ≠ []) :
    (∃ v, (getVictim MaxTick s candidates).1 = .ok v) ∧
    (getVictim MaxTick s candidates).1 ≠ .error .oldestDirtyNull ∧
    ((∃ v, ((scan MaxTick s candidates).part false).1 = some v) ∨
      ((∀ c ∈ candidates, isDirty s c = true) ∧
        ∃ v, ((scan MaxTick s candidates).part true).1 = some v)) := by
  obtain ⟨c0, hc0⟩ := List.exists_mem_of_ne_nil candidates hne
  have hlt := hreal c0 hc0
  cases hclean : ((scan MaxTick s candidates).part false).1 with
  | some v =>
    have hres := getVictim_of_clean MaxTick s candidates v hclean
    exact ⟨⟨v, by rw [hres]⟩, by rw [hres]; simp, Or.inl ⟨v, rfl⟩⟩
  | none =>
    have hnoclean := (recorded_none_iff MaxTick s false candidates).1 hclean
    have hall : ∀ c ∈ candidates, isDirty s c = true := by
      intro c hc
      cases hd : isDirty s c
      · exact absurd (hreal c hc) (Nat.not_lt.2 (hnoclean c hc hd))
      · rfl
    cases hdirty : ((scan MaxTick s candidates).part true).1 with
    | some v =>
      have hres := getVictim_of_dirty MaxTick s candidates v hclean hdirty
      exact ⟨⟨v, by rw [hres]⟩, by rw [hres]; simp, Or.inr ⟨hall, v, rfl⟩⟩
    | none =>
      exact absurd hlt (Nat.not_lt.2
        ((recorded_none_iff MaxTick s true candidates).1 hdirty c0 hc0 (hall c0 hc0)))

/-- Witness of C5: lines dirty@9, dirty@4; the victim is the line at tick 4. -/
theorem getVictim_returns_witness :
    (∀ c ∈ [0, 1], candidateTick (Memory.ofLines [(true, 9), (true, 4)]) c < gem5MaxTick) ∧
    [0, 1] ≠ [] ∧
    (getVictim gem5MaxTick (Memory.ofLines [(true, 9), (true, 4)]) [0, 1]).1 = .ok 1 ∧
    ∃ v, (getVictim gem5MaxTick (Memory.ofLines [(true, 9), (true, 4)]) [0, 1]).1 = .ok v :=
  ⟨by decide, by decide, by decide, (getVictim_returns gem5MaxTick
    (Memory.ofLines [(true, 9), (true, 4)]) [0, 1] (by decide) (by decide)).1⟩

/-- C6: a victim returned by `getVictim` is an element of the candidate list. -/
theorem getVictim_mem (MaxTick : Tick) (s : Memory) (candidates : List Addr) (v : Addr)
    (h : (getVictim MaxTick s candidates).1 = .ok v) : v ∈ candidates := by
  rcases getVictim_ok_inv MaxTick s candidates v h with hrec | ⟨_, hrec⟩
  · obtain ⟨_, _, pre, post, hcs, _, _⟩ := recorded_spec MaxTick s false candidates v hrec
    simp [hcs]
  · obtain ⟨_, _, pre, post, hcs, _, _⟩ := recorded_spec MaxTick s true candidates v hrec
    simp [hcs]

/-- Witness of C6: candidates at addresses 4, 2, 3 of a memory whose lines are
dirty@8, clean@8, dirty@6, clean@8, dirty@5; the victim is the clean candidate 3. -/
theorem getVictim_mem_witness :
    (getVictim gem5MaxTick
      (Memory.ofLines [(true, 8), (false, 8), (true, 6), (false, 8), (true, 5)]) [4, 2, 3]).1
      = .ok 3 ∧ 3 ∈ [4, 2, 3] :=
  ⟨by decide, getVictim_mem gem5MaxTick
    (Memory.ofLines [(true, 8), (false, 8), (true, 6), (false, 8), (true, 5)]) [4, 2, 3] 3
    (by decide)⟩

/-- C7: `getVictim` leaves the memory as it was, whether it returns a victim or
fails an assertion: the tick and the dirty attribute of every candidate are
the same after the call as before. -/
theorem getVictim_read_only (MaxTick : Tick) (s : Memory) (candidates : List Addr) (c : Addr) :
    (getVictim MaxTick s candidates).2 = s ∧
    candidateTick (getVictim MaxTick s candidates).2 c = candidateTick s c ∧
    isDirty (getVictim MaxTick s candidates).2 c = isDirty s c := by
  have hmem : (getVictim MaxTick s candidates).2 = s := by
    rw [getVictim_eq]
    split
    · split
      · rfl
      · split <;> rfl
    · rfl
  rw [hmem]
  exact ⟨rfl, rfl, rfl⟩

/-- C8: on the empty candidate list `getVictim` fails the assertion
`candidates.size() > 0`, whatever the memory holds, and returns no victim. -/
theorem getVictim_nil (MaxTick : Tick) (s : Memory) :
    getVictim MaxTick s [] = (.error .candidatesEmpty, s) := by
  rfl

/-- C9: `invalidate` stores the sentinel 0 in the tick of the replacement data
it is given and leaves the blocks and every other replacement data as they
were; its result does not depend on the tick stored before (written by a
`touch` at any clock value). -/
theorem invalidate_spec (s : Memory) (replacement_data : Addr) (t : Tick) (a : Addr) :
    ((invalidate s replacement_data).data replacement_data).lastTouchTick = 0 ∧
    (invalidate s replacement_data).blk = s.blk ∧
    (invalidate s replacement_data).data a
      = (if a = replacement_data then { lastTouchTick := 0 } else s.data a) ∧
    invalidate (touch t s replacement_data) replacement_data = invalidate s replacement_data := by
  refine ⟨by simp [invalidate], rfl, ?_, ?_⟩
  · by_cases h : a = replacement_data
    · subst h; simp [invalidate]
    · simp [invalidate, Function.update_noteq h, h]
  · simp [invalidate, touch]

/-- C10: `touch` at clock value `t` stores exactly `t` in the tick of the
replacement data it is given, whatever tick was stored before; the tick read
for a candidate whose replacement data was touched is `t`.  The function is
total: no call fails. -/
theorem touch_spec (t : Tick) (s : Memory) (replacement_data candidate : Addr) :
    ((touch t s replacement_data).data replacement_data).lastTouchTick = t ∧
    candidateTick (touch t s (s.blk candidate).replacementData) candidate = t := by
  constructor
  · simp [touch]
  · simp [touch, candidateTick]

/-- A recorded entry has the least tick of its partition. -/
theorem recorded_le (MaxTick : Tick) (s : Memory) (d : Bool) (candidates : List Addr)
    (v : Addr) (h : ((scan MaxTick s candidates).part d).1 = some v) :
    ∀ c ∈ candidates, isDirty s c = d → candidateTick s v ≤ candidateTick s c := by
  obtain ⟨_, _, pre, post, hcs, hpre, hpost⟩ := recorded_spec MaxTick s d candidates v h
  intro c hc hcd
  rw [hcs] at hc
  rcases List.mem_append.1 hc with hc | hc
  · exact Nat.le_of_lt (hpre c hc hcd)
  · rcases List.mem_cons.1 hc with rfl | hc
    · exact Nat.le_refl _
    · exact hpost c hc hcd

/-- A returned victim is the entry recorded for its own partition. -/
theorem getVictim_ok_recorded (MaxTick : Tick) (s : Memory) (candidates : List Addr) (v : Addr)
    (h : (getVictim MaxTick s candidates).1 = .ok v) :
    ((scan MaxTick s candidates).part (isDirty s v)).1 = some v := by
  rcases getVictim_ok_inv MaxTick s candidates v h with hrec | ⟨_, hrec⟩
  · rw [(recorded_spec MaxTick s false candidates v hrec).1]; exact hrec
  · rw [(recorded_spec MaxTick s true candidates v hrec).1]; exact hrec

/-- A returned victim has the least tick of its partition. -/
theorem getVictim_ok_le (MaxTick : Tick) (s : Memory) (candidates : List Addr) (v : Addr)
    (h : (getVictim MaxTick s candidates).1 = .ok v) :
    ∀ c ∈ candidates, isDirty s c = isDirty s v → candidateTick s v ≤ candidateTick s c :=
  recorded_le MaxTick s (isDirty s v) candidates v (getVictim_ok_recorded MaxTick s candidates v h)

theorem candidateTick_invalidate (s : Memory) (p : Addr) :
    candidateTick (invalidate s (s.blk p).replacementData) p = 0 := by
  simp [invalidate, candidateTick]

theorem candidateTick_touch (t : Tick) (s : Memory) (p : Addr) :
    candidateTick (touch t s (s.blk p).replacementData) p = t := by
  simp [touch, candidateTick]

/-- In a memory where the candidate `p` has tick 0 and the other candidates of
its partition have a positive tick, a victim of the partition of `p` is `p`. -/
theorem victim_of_zero_tick (MaxTick : Tick) (s : Memory) (candidates : List Addr) (p : Addr)
    (hp : p ∈ candidates) (hzero : candidateTick s p = 0)
    (hothers : ∀ c ∈ candidates, c ≠ p → isDirty s c = isDirty s p → 0 < candidateTick s c)
    (v : Addr) (h : (getVictim MaxTick s candidates).1 = .ok v)
    (hv : isDirty s v = isDirty s p) : v = p := by
  by_contra hne
  have hmem : v ∈ candidates := by
    rcases getVictim_ok_inv MaxTick s candidates v h with hrec | ⟨_, hrec⟩
    · obtain ⟨_, _, pre, post, hcs, _, _⟩ := recorded_spec MaxTick s false candidates v hrec
      simp [hcs]
    · obtain ⟨_, _, pre, post, hcs, _, _⟩ := recorded_spec MaxTick s true candidates v hrec
      simp [hcs]
  have hle := getVictim_ok_le MaxTick s candidates v h p hp hv.symm
  have hpos := hothers v hmem hne hv
  rw [hzero] at hle
  exact absurd hpos (Nat.not_lt.2 hle)

/-- C11: `reset` and `touch` are the same memory transformer, at every clock
value, memory and replacement data. -/
theorem reset_eq_touch (curTick : Tick) (s : Memory) (replacement_data : Addr) :
    reset curTick s replacement_data = touch curTick s replacement_data := by
  rfl

/-- A candidate whose replacement data is not the invalidated one keeps its tick. -/
theorem candidateTick_invalidate_other (s : Memory) (replacement_data c : Addr)
    (h : (s.blk c).replacementData ≠ replacement_data) :
    candidateTick (invalidate s replacement_data) c = candidateTick s c := by
  simp [invalidate, candidateTick, Function.update_noteq h]

/-- C12: let the candidate `p` of the list be invalidated, in a memory where
every other candidate of the partition of `p` has replacement data of its own
and a tick strictly greater than 0.  Then `getVictim`, run after the
`invalidate`, returns no other candidate of that partition: it returns `p`
when `p` is clean, and when `p` is dirty and all candidates are dirty.
`MaxTick` is positive. -/
theorem invalidate_then_getVictim (MaxTick : Tick) (s : Memory) (candidates : List Addr)
    (p : Addr) (hMax : 0 < MaxTick) (hp : p ∈ candidates)
    (hothers : ∀ c ∈ candidates, c ≠ p → isDirty s c = isDirty s p →
      (s.blk c).replacementData ≠ (s.blk p).replacementData ∧ 0 < candidateTick s c) :
    candidateTick (invalidate s (s.blk p).replacementData) p = 0 ∧
    (∀ c ∈ candidates, c ≠ p → isDirty s c = isDirty s p →
      0 < candidateTick (invalidate s (s.blk p).replacementData) c) ∧
    (∀ v, (getVictim MaxTick (invalidate s (s.blk p).replacementData) candidates).1 = .ok v →
      isDirty (invalidate s (s.blk p).replacementData) v =
        isDirty (invalidate s (s.blk p).replacementData) p → v = p) ∧
    (isDirty s p = false →
      (getVictim MaxTick (invalidate s (s.blk p).replacementData) candidates).1 = .ok p) ∧
    (isDirty s p = true → (∀ c ∈ candidates, isDirty s c = true) →
      (getVictim MaxTick (invalidate s (s.blk p).replacementData) candidates).1 = .ok p) := by
  have hzero := candidateTick_invalidate s p
  have hpost : ∀ c ∈ candidates, c ≠ p → isDirty s c = isDirty s p →
      0 < candidateTick (invalidate s (s.blk p).replacementData) c := by
    intro c hc hne hd
    rw [candidateTick_invalidate_other s _ c (hothers c hc hne hd).1]
    exact (hothers c hc hne hd).2
  have hdirty_eq : ∀ c, isDirty (invalidate s (s.blk p).replacementData) c = isDirty s c :=
    fun _ => rfl
  have hsame := victim_of_zero_tick MaxTick (invalidate s (s.blk p).replacementData)
    candidates p hp hzero (fun c hc hne hd => hpost c hc hne (by rw [← hdirty_eq c, hd]; rfl))
  refine ⟨hzero, hpost, hsame, ?_, ?_⟩
  · intro hclean
    cases hrec : ((scan MaxTick (invalidate s (s.blk p).replacementData) candidates).part
        false).1 with
    | none =>
      have := (recorded_none_iff MaxTick _ false candidates).1 hrec p hp hclean
      rw [hzero] at this
      exact absurd hMax (Nat.not_lt.2 this)
    | some v =>
      have hres := getVictim_of_clean MaxTick _ candidates v hrec
      have hv := (recorded_spec MaxTick _ false candidates v hrec).1
      have : v = p := hsame v (by rw [hres]) (by rw [hv]; exact hclean.symm)
      rw [hres, this]
  · intro hdirty hall
    have hnone : ((scan MaxTick (invalidate s (s.blk p).replacementData) candidates).part
        false).1 = none := by
      rw [recorded_none_iff]
      intro c hc hcd
      have := hall c hc
      rw [← hdirty_eq c, hcd] at this
      cases this
    cases hrec : ((scan MaxTick (invalidate s (s.blk p).replacementData) candidates).part
        true).1 with
    | none =>
      have := (recorded_none_iff MaxTick _ true candidates).1 hrec p hp hdirty
      rw [hzero] at this
      exact absurd hMax (Nat.not_lt.2 this)
    | some v =>
      have hres := getVictim_of_dirty MaxTick _ candidates v hnone hrec
      have hv := (recorded_spec MaxTick _ true candidates v hrec).1
      have : v = p := hsame v (by rw [hres]) (by rw [hv]; exact hdirty.symm)
      rw [hres, this]

/-- Witness of C12: of the lines clean@5, clean@100, dirty@1 the victim is the
line at tick 5; once the clean line at tick 100 is invalidated, that line is
the victim, ahead of the clean line at tick 5. -/
theorem invalidate_then_getVictim_witness :
    0 < gem5MaxTick ∧ 1 ∈ [0, 1, 2] ∧
    (∀ c ∈ [0, 1, 2], c ≠ 1 →
      isDirty (Memory.ofLines [(false, 5), (false, 100), (true, 1)]) c =
        isDirty (Memory.ofLines [(false, 5), (false, 100), (true, 1)]) 1 →
      ((Memory.ofLines [(false, 5), (false, 100), (true, 1)]).blk c).replacementData ≠
        ((Memory.ofLines [(false, 5), (false, 100), (true, 1)]).blk 1).replacementData ∧
      0 < candidateTick (Memory.ofLines [(false, 5), (false, 100), (true, 1)]) c) ∧
    isDirty (Memory.ofLines [(false, 5), (false, 100), (true, 1)]) 0 =
      isDirty (Memory.ofLines [(false, 5), (false, 100), (true, 1)]) 1 ∧
    (getVictim gem5MaxTick (Memory.ofLines [(false, 5), (false, 100), (true, 1)])
      [0, 1, 2]).1 = .ok 0 ∧
    (getVictim gem5MaxTick
      (invalidate (Memory.ofLines [(false, 5), (false, 100), (true, 1)])
        ((Memory.ofLines [(false, 5), (false, 100), (true, 1)]).blk 1).replacementData)
      [0, 1, 2]).1 = .ok 1 :=
  ⟨by decide, by decide, by decide, by decide, by decide,
    (invalidate_then_getVictim gem5MaxTick
      (Memory.ofLines [(false, 5), (false, 100), (true, 1)]) [0, 1, 2] 1
      (by decide) (by decide) (by decide)).2.2.2.1 (by decide)⟩

/-- Scenario D: of the lines clean@100, dirty@1 the clean line is invalidated;
it is the victim. -/
theorem scenario_D :
    (getVictim gem5MaxTick
      (invalidate (Memory.ofLines [(false, 100), (true, 1)])
        ((Memory.ofLines [(false, 100), (true, 1)]).blk 0).replacementData) [0, 1]).1 = .ok 0 := by
  decide

/-- C13: `touch` twice in a row at the same clock value gives the memory that
one `touch` at that clock value gives. -/
theorem touch_idempotent (t : Tick) (s : Memory) (replacement_data : Addr) :
    touch t (touch t s replacement_data) replacement_data = touch t s replacement_data := by
  simp [touch]

theorem apply_tick (s : Memory) (replacement_data : Addr) (op : Op) :
    ((Op.apply s replacement_data op).data replacement_data).lastTouchTick
      = (Op.clock op).getD 0 := by
  cases op <;> simp [Op.apply, Op.clock, invalidate, touch, reset]

theorem storedTicks_eq_clocks (replacement_data : Addr) (ops : List Op) :
    ∀ s : Memory, (∀ op ∈ ops, op ≠ Op.invalidate) →
      storedTicks s replacement_data ops = ops.filterMap Op.clock := by
  induction ops with
  | nil => intro s _; rfl
  | cons op ops ih =>
    intro s h
    have htail := ih (Op.apply s replacement_data op) (fun o ho => h o (List.mem_cons_of_mem _ ho))
    cases op with
    | invalidate => exact absurd rfl (h Op.invalidate (List.mem_cons_self _ _))
    | touch t => rw [storedTicks, htail, apply_tick]; simp [Op.clock]
    | reset t => rw [storedTicks, htail, apply_tick]; simp [Op.clock]

/-- C14: a `touch` at `t1` followed by a `touch` at `t2`, with `t1 < t2`, leaves
the tick `t2`, which is not below the tick the first call stored; along a
sequence of `touch` and `reset` calls (no `invalidate`) whose clock values are
non-decreasing, each stored tick is at least the one stored by the call
before, and the same holds from any earlier value `t0` the clock values do
not fall below. -/
theorem touch_monotonic (s : Memory) (replacement_data : Addr) (t1 t2 : Tick) (ops : List Op)
    (h12 : t1 < t2) (hno : ∀ op ∈ ops, op ≠ Op.invalidate)
    (hclk : List.Chain' (fun a b => a ≤ b) (ops.filterMap Op.clock)) :
    ((touch t2 (touch t1 s replacement_data) replacement_data).data
      replacement_data).lastTouchTick = t2 ∧
    ((touch t1 s replacement_data).data replacement_data).lastTouchTick <
      ((touch t2 (touch t1 s replacement_data) replacement_data).data
        replacement_data).lastTouchTick ∧
    List.Chain' (fun a b => a ≤ b) (storedTicks s replacement_data ops) ∧
    (∀ t0 : Tick, List.Chain (fun a b => a ≤ b) t0 (ops.filterMap Op.clock) →
      List.Chain (fun a b => a ≤ b) t0 (storedTicks s replacement_data ops)) := by
  refine ⟨by simp [touch], by simpa [touch] using h12, ?_, ?_⟩
  · rw [storedTicks_eq_clocks replacement_data ops s hno]; exact hclk
  · intro t0 h0
    rw [storedTicks_eq_clocks replacement_data ops s hno]; exact h0

/-- Witness of C14: from a line at tick 7, the calls touch@3, reset@3, touch@8
store the ticks 3, 3, 8. -/
theorem touch_monotonic_witness :
    storedTicks (Memory.ofLines [(false, 7)]) 0 [Op.touch 3, Op.reset 3, Op.touch 8] = [3, 3, 8] ∧
    List.Chain' (fun a b => a ≤ b)
      (storedTicks (Memory.ofLines [(false, 7)]) 0 [Op.touch 3, Op.reset 3, Op.touch 8]) :=
  ⟨by decide, (touch_monotonic (Memory.ofLines [(false, 7)]) 0 1 2
    [Op.touch 3, Op.reset 3, Op.touch 8] (by decide) (by decide)
    (by simp [Op.clock])).2.2.1⟩

theorem run_cons (s : Memory) (replacement_data : Addr) (op : Op) (ops : List Op) :
    run s replacement_data (op :: ops) =
      run (Op.apply s replacement_data op) replacement_data ops := by
  rfl

/-- The tick stored after a sequence of calls is decided by the last call. -/
theorem run_tick (replacement_data : Addr) (ops : List Op) :
    ∀ s : Memory, ((run s replacement_data ops).data replacement_data).lastTouchTick =
      match ops.getLast? with
      | some op => (Op.clock op).getD 0
      | none => (s.data replacement_data).lastTouchTick := by
  induction ops with
  | nil => intro s; rfl
  | cons op ops ih =>
    intro s
    rw [run_cons, ih]
    cases ops with
    | nil => simp [apply_tick]
    | cons o os =>
      rw [List.getLast?_cons_cons, List.getLast?_eq_getLast (o :: os) (List.cons_ne_nil o os)]

/-- C15: from a replacement data at the sentinel 0, after any sequence of
`invalidate`, `touch` and `reset` calls the stored tick is the clock value of
the last call when that is a `touch` or a `reset`, and 0 otherwise; so it is 0
or a clock value supplied to a `touch` or `reset` of the sequence. -/
theorem tick_after_run (s : Memory) (replacement_data : Addr) (ops : List Op)
    (h0 : (s.data replacement_data).lastTouchTick = 0) :
    ((run s replacement_data ops).data replacement_data).lastTouchTick = expectedTick ops ∧
    (((run s replacement_data ops).data replacement_data).lastTouchTick = 0 ∨
      ∃ op ∈ ops,
        Op.clock op = some ((run s replacement_data ops).data replacement_data).lastTouchTick) := by
  rw [run_tick]
  unfold expectedTick
  cases hl : ops.getLast? with
  | none => exact ⟨h0, Or.inl h0⟩
  | some op =>
    have hmem : op ∈ ops := List.mem_of_getLast?_eq_some hl
    cases op with
    | invalidate => exact ⟨rfl, Or.inl rfl⟩
    | touch t => exact ⟨rfl, Or.inr ⟨Op.touch t, hmem, rfl⟩⟩
    | reset t => exact ⟨rfl, Or.inr ⟨Op.reset t, hmem, rfl⟩⟩

/-- Witness of C15: from a line at tick 0, the calls touch@4, invalidate,
reset@9, touch@6 leave the tick 6. -/
theorem tick_after_run_witness :
    ((Memory.ofLines [(true, 0)]).data 0).lastTouchTick = 0 ∧
    ((run (Memory.ofLines [(true, 0)]) 0
      [Op.touch 4, Op.invalidate, Op.reset 9, Op.touch 6]).data 0).lastTouchTick = 6 :=
  ⟨by decide, (tick_after_run (Memory.ofLines [(true, 0)]) 0
    [Op.touch 4, Op.invalidate, Op.reset 9, Op.touch 6] (by decide)).1⟩

/-- A victim is returned exactly when some candidate is below `MaxTick`. -/
theorem getVictim_ok_iff_below (MaxTick : Tick) (s : Memory) (candidates : List Addr) :
    (∃ v, (getVictim MaxTick s candidates).1 = .ok v) ↔
      ∃ c ∈ candidates, candidateTick s c < MaxTick := by
  constructor
  · rintro ⟨v, hv⟩
    have hrec := getVictim_ok_recorded MaxTick s candidates v hv
    obtain ⟨_, hlt, pre, post, hcs, _, _⟩ := recorded_spec MaxTick s _ candidates v hrec
    exact ⟨v, by simp [hcs], hlt⟩
  · rintro ⟨c0, hc0, hlt⟩
    cases hclean : ((scan MaxTick s candidates).part false).1 with
    | some v => exact ⟨v, by rw [getVictim_of_clean MaxTick s candidates v hclean]⟩
    | none =>
      cases hdirty : ((scan MaxTick s candidates).part true).1 with
      | some v => exact ⟨v, by rw [getVictim_of_dirty MaxTick s candidates v hclean hdirty]⟩
      | none =>
        exfalso
        cases hd : isDirty s c0
        · exact absurd hlt
            (Nat.not_lt.2 ((recorded_none_iff MaxTick s false candidates).1 hclean c0 hc0 hd))
        · exact absurd hlt
            (Nat.not_lt.2 ((recorded_none_iff MaxTick s true candidates).1 hdirty c0 hc0 hd))

/-- C16: `getVictim` returns a victim exactly when some candidate has a tick
strictly below `MaxTick`; a candidate whose tick is `MaxTick` is recorded in
neither partition; a non-empty list whose ticks are all `MaxTick` fails the
assertion `oldest_dirty_entry != nullptr`; and when the clean candidates are
all at `MaxTick` and a dirty candidate is below it, the oldest dirty
candidate is returned. -/
theorem getVictim_success_condition (MaxTick : Tick) (s : Memory) (candidates : List Addr) :
    ((∃ v, (getVictim MaxTick s candidates).1 = .ok v) ↔
      ∃ c ∈ candidates, candidateTick s c < MaxTick) ∧
    (∀ (d : Bool) (c : Addr), candidateTick s c = MaxTick →
      ((scan MaxTick s candidates).part d).1 ≠ some c) ∧
    (candidates ≠ [] → (∀ c ∈ candidates, candidateTick s c = MaxTick) →
      (getVictim MaxTick s candidates).1 = .error .oldestDirtyNull) ∧
    ((∀ c ∈ candidates, isDirty s c = false → candidateTick s c = MaxTick) →
      (∃ c ∈ candidates, isDirty s c = true ∧ candidateTick s c < MaxTick) →
      ∃ v, (getVictim MaxTick s candidates).1 = .ok v ∧ v ∈ candidates ∧ isDirty s v = true ∧
        ∀ c ∈ candidates, isDirty s c = true → candidateTick s v ≤ candidateTick s c) := by
  refine ⟨getVictim_ok_iff_below MaxTick s candidates, ?_, ?_, ?_⟩
  · intro d c hc hrec
    have hlt := (recorded_spec MaxTick s d candidates c hrec).2.1
    rw [hc] at hlt
    exact Nat.lt_irrefl _ hlt
  · intro hne hall
    have hnone : ∀ d, ((scan MaxTick s candidates).part d).1 = none := by
      intro d
      rw [recorded_none_iff]
      intro c hc _
      rw [hall c hc]
    have hlen : candidates.length > 0 := List.length_pos.2 hne
    rw [getVictim_eq, if_pos hlen, hnone false, hnone true]
  · rintro hclean ⟨c0, hc0, hd0, hlt0⟩
    have hnone : ((scan MaxTick s candidates).part false).1 = none := by
      rw [recorded_none_iff]
      intro c hc hcd
      rw [hclean c hc hcd]
    cases hrec : ((scan MaxTick s candidates).part true).1 with
    | none =>
      exact absurd hlt0
        (Nat.not_lt.2 ((recorded_none_iff MaxTick s true candidates).1 hrec c0 hc0 hd0))
    | some v =>
      obtain ⟨hv, _, pre, post, hcs, _, _⟩ := recorded_spec MaxTick s true candidates v hrec
      exact ⟨v, by rw [getVictim_of_dirty MaxTick s candidates v hnone hrec], by simp [hcs], hv,
        recorded_le MaxTick s true candidates v hrec⟩

/-- A recorded entry is an element of the list. -/
theorem recorded_mem (MaxTick : Tick) (s : Memory) (d : Bool) (candidates : List Addr)
    (v : Addr) (h : ((scan MaxTick s candidates).part d).1 = some v) : v ∈ candidates := by
  obtain ⟨_, _, pre, post, hcs, _, _⟩ := recorded_spec MaxTick s d candidates v h
  simp [hcs]

/-- When candidates of one partition with equal ticks are the same candidate,
the entry recorded for a partition is the same for every reordering. -/
theorem recorded_perm (MaxTick : Tick) (s : Memory) (d : Bool) (candidates perm : List Addr)
    (hdist : ∀ a ∈ candidates, ∀ b ∈ candidates, isDirty s a = isDirty s b →
      candidateTick s a = candidateTick s b → a = b)
    (hperm : perm.Perm candidates) :
    ((scan MaxTick s perm).part d).1 = ((scan MaxTick s candidates).part d).1 := by
  cases hrec : ((scan MaxTick s candidates).part d).1 with
  | none =>
    rw [recorded_none_iff] at hrec ⊢
    intro c hc hcd
    exact hrec c (hperm.mem_iff.1 hc) hcd
  | some v =>
    have hv := recorded_spec MaxTick s d candidates v hrec
    have hvmem := recorded_mem MaxTick s d candidates v hrec
    cases hrec2 : ((scan MaxTick s perm).part d).1 with
    | none =>
      have := (recorded_none_iff MaxTick s d perm).1 hrec2 v (hperm.mem_iff.2 hvmem) hv.1
      exact absurd hv.2.1 (Nat.not_lt.2 this)
    | some w =>
      have hw := recorded_spec MaxTick s d perm w hrec2
      have hwmem := hperm.mem_iff.1 (recorded_mem MaxTick s d perm w hrec2)
      have h1 := recorded_le MaxTick s d candidates v hrec w hwmem hw.1
      have h2 := recorded_le MaxTick s d perm w hrec2 v (hperm.mem_iff.2 hvmem) hv.1
      have : w = v := hdist w hwmem v hvmem (by rw [hw.1, hv.1]) (Nat.le_antisymm h2 h1)
      rw [this]

/-- C17: when all ticks are below `MaxTick` and candidates of one partition
with equal ticks are one and the same candidate, `getVictim` gives the same
result on every permutation of the list, and that result is a victim when
the list is not empty. -/
theorem getVictim_perm (MaxTick : Tick) (s : Memory) (candidates perm : List Addr)
    (hbelow : ∀ c ∈ candidates, candidateTick s c < MaxTick)
    (hdist : ∀ a ∈ candidates, ∀ b ∈ candidates, isDirty s a = isDirty s b →
      candidateTick s a = candidateTick s b → a = b)
    (hperm : perm.Perm candidates) :
    (getVictim MaxTick s perm).1 = (getVictim MaxTick s candidates).1 ∧
    (candidates ≠ [] → ∃ v, (getVictim MaxTick s perm).1 = .ok v ∧
      (getVictim MaxTick s candidates).1 = .ok v) := by
  have heq : getVictim MaxTick s perm = getVictim MaxTick s candidates := by
    rw [getVictim_eq, getVictim_eq, recorded_perm MaxTick s false candidates perm hdist hperm,
      recorded_perm MaxTick s true candidates perm hdist hperm, hperm.length_eq]
  refine ⟨by rw [heq], ?_⟩
  intro hne
  obtain ⟨c0, hc0⟩ := List.exists_mem_of_ne_nil candidates hne
  obtain ⟨v, hv⟩ := (getVictim_ok_iff_below MaxTick s candidates).2 ⟨c0, hc0, hbelow c0 hc0⟩
  exact ⟨v, by rw [heq, hv], hv⟩

/-- Witness of C17: the lines clean@5, dirty@1, clean@9, dirty@5 taken in the
order 2, 3, 0, 1 give the victim of the order 0, 1, 2, 3. -/
theorem getVictim_perm_witness :
    (getVictim gem5MaxTick (Memory.ofLines [(false, 5), (true, 1), (false, 9), (true, 5)])
      [2, 3, 0, 1]).1 =
    (getVictim gem5MaxTick (Memory.ofLines [(false, 5), (true, 1), (false, 9), (true, 5)])
      [0, 1, 2, 3]).1 :=
  (getVictim_perm gem5MaxTick (Memory.ofLines [(false, 5), (true, 1), (false, 9), (true, 5)])
    [0, 1, 2, 3] [2, 3, 0, 1] (by decide) (by decide) (by decide)).1

/-- C18: after `touch` (or `reset`) at clock value `t` on the replacement data
of the candidate `p`, when a candidate of the list with the dirty attribute of
`p` has a tick strictly below `t`, `getVictim` does not return `p`. -/
theorem touched_not_victim (MaxTick t : Tick) (s : Memory) (candidates : List Addr)
    (p q : Addr) (hq : q ∈ candidates)
    (hpart : isDirty (touch t s (s.blk p).replacementData) q =
      isDirty (touch t s (s.blk p).replacementData) p)
    (hlt : candidateTick (touch t s (s.blk p).replacementData) q < t) :
    (getVictim MaxTick (touch t s (s.blk p).replacementData) candidates).1 ≠ .ok p ∧
    (getVictim MaxTick (reset t s (s.blk p).replacementData) candidates).1 ≠ .ok p := by
  have key : (getVictim MaxTick (touch t s (s.blk p).replacementData) candidates).1 ≠ .ok p := by
    intro h
    have hle := getVictim_ok_le MaxTick _ candidates p h q hq hpart
    rw [candidateTick_touch] at hle
    exact absurd hlt (Nat.not_lt.2 hle)
  exact ⟨key, key⟩

/-- Witness of C18: of the lines clean@5, clean@3 the second is touched at
clock value 8; the victim is the first. -/
theorem touched_not_victim_witness :
    candidateTick (touch 8 (Memory.ofLines [(false, 5), (false, 3)])
      ((Memory.ofLines [(false, 5), (false, 3)]).blk 1).replacementData) 0 < 8 ∧
    (getVictim gem5MaxTick (touch 8 (Memory.ofLines [(false, 5), (false, 3)])
      ((Memory.ofLines [(false, 5), (false, 3)]).blk 1).replacementData) [0, 1]).1 ≠ .ok 1 :=
  ⟨by decide, (touched_not_victim gem5MaxTick 8 (Memory.ofLines [(false, 5), (false, 3)]) [0, 1]
    1 0 (by decide) (by decide) (by decide)).1⟩

end LRURP
